import Mathlib

/-!
Verification of the Note-orious web-piano voice lifecycle manager.

The repository contains two variants of the engine:
* `src/unnamed/part_000` (first document, namespace `Part000`): the full
  engine with a physically-held key set (`heldKeys`), forced release
  (`forceOff` / `forceAllOff`), a sustain pedal sweep that skips held keys,
  and mobile-safety handlers that call `forceAllOff`.
* `src/piano.js` (namespace `PianoJs`): a variant without `heldKeys` and
  without any forced release; its safety handlers call `noteOff`, which
  honors sustain, and its pedal-up sweep releases every sustain-pool key.

The shallow embedding models the claim-relevant state: the `active`
voice table (a JS `Map` from string keys to voices), the `heldKeys` and
`sustainPool` JS `Set`s, and the `sustain` flag.  Voices are tracked by
a numeric identity (`nextId` counter) standing for the `{osc, gain}`
resource pair.  Audio-graph side effects are recorded as an explicit
action list: `startVoice` stands for oscillator/gain creation, the
attack ramp and `osc.start()`; `stopNow` stands for the synchronous
`osc.stop(); disconnect()` in `stopVoiceNow`; `fadeOut` stands for
`cancelScheduledValues` + `setTargetAtTime(0, …)` + the deferred
`setTimeout(stopVoiceNow, …)`.  The numeric envelope parameters
(attack, release, volume, velocity) and the oscillator frequency do not
affect which lifecycle actions occur, so they are not threaded through
the state; `midiToFreq` is modelled separately over the reals.
-/

namespace Noteorious

/-- The audio-graph side effects a lifecycle operation can issue,
abstracted over the envelope numerics.  `startVoice v` creates, ramps up
and starts resource `v`; `stopNow v` stops it synchronously
(`stopVoiceNow`); `fadeOut v` schedules the release ramp and deferred
stop. -/
inductive AudioAction where
  | startVoice (v : Nat)
  | stopNow (v : Nat)
  | fadeOut (v : Nat)
deriving DecidableEq, Repr

/-- `active.get(key)` on the JS `Map`, modelled on an association list. -/
def mapGet (k : String) (m : List (String × Nat)) : Option Nat :=
  (m.find? (fun p => p.1 == k)).map (fun p => p.2)

/-- `active.set(key, v)` on the JS `Map`: replace in place if present,
else append. -/
def mapSet (k : String) (v : Nat) (m : List (String × Nat)) : List (String × Nat) :=
  if m.any (fun p => p.1 == k) then
    m.map (fun p => if p.1 == k then (k, v) else p)
  else
    m ++ [(k, v)]

/-- `active.delete(key)` on the JS `Map`. -/
def mapDelete (k : String) (m : List (String × Nat)) : List (String × Nat) :=
  m.filter (fun p => p.1 != k)

/-- `s.add(k)` on a JS `Set` modelled as a duplicate-free list. -/
def setAdd (k : String) (s : List String) : List String :=
  if k ∈ s then s else s ++ [k]

/-- `s.delete(k)` on a JS `Set`. -/
def setDelete (k : String) (s : List String) : List String :=
  s.filter (fun x => x != k)

/-- The set of resources currently emitting sound, updated by a list of
audio actions: `startVoice` adds a resource, `stopNow` and `fadeOut`
silence it (immediately, resp. at the end of the scheduled ramp). -/
def sounding (init : List Nat) (acts : List AudioAction) : List Nat :=
  acts.foldl
    (fun S a =>
      match a with
      | .startVoice v => S ++ [v]
      | .stopNow v => S.filter (fun x => x != v)
      | .fadeOut v => S.filter (fun x => x != v))
    init

namespace Part000

/-- Claim-relevant state of the `src/unnamed/part_000` engine: the
`active` voice table, the physically-held key set, the sustain pedal
flag, the sustain pool, and a counter allocating voice identities. -/
structure PState where
  active : List (String × Nat)
  heldKeys : List String
  sustain : Bool
  sustainPool : List String
  nextId : Nat
deriving DecidableEq, Repr

/-- Initial state: empty table and sets, pedal up. -/
def init : PState := ⟨[], [], false, [], 0⟩

/-- `noteOn(key, freq, vel)` of part_000: if a voice already exists for
the key it is stopped immediately (`stopVoiceNow`), then a fresh voice
is created, ramped up, started, and stored in the table. -/
def noteOn (key : String) (s : PState) : PState × List AudioAction :=
  let prevActs : List AudioAction :=
    match mapGet key s.active with
    | some v => [AudioAction.stopNow v]
    | none => []
  ({ s with active := mapSet key s.nextId s.active, nextId := s.nextId + 1 },
   prevActs ++ [AudioAction.startVoice s.nextId])

/-- `noteOff(key)` of part_000 (identical logic in piano.js): no-op when
no voice exists; when sustain is on the key joins the sustain pool and
nothing else happens; otherwise the voice is faded out and removed from
the table. -/
def noteOff (key : String) (s : PState) : PState × List AudioAction :=
  match mapGet key s.active with
  | none => (s, [])
  | some v =>
    if s.sustain then
      ({ s with sustainPool := setAdd key s.sustainPool }, [])
    else
      ({ s with active := mapDelete key s.active }, [AudioAction.fadeOut v])

/-- `forceOff(key)` of part_000: no-op when no voice exists; otherwise
fade the voice out and remove the key from the table, the sustain pool
and the held set, ignoring the pedal. -/
def forceOff (key : String) (s : PState) : PState × List AudioAction :=
  match mapGet key s.active with
  | none => (s, [])
  | some v =>
    ({ s with active := mapDelete key s.active,
              sustainPool := setDelete key s.sustainPool,
              heldKeys := setDelete key s.heldKeys },
     [AudioAction.fadeOut v])

/-- The loop `for (const k of Array.from(active.keys())) forceOff(k)`. -/
def foldForce (keys : List String) (s : PState) : PState × List AudioAction :=
  match keys with
  | [] => (s, [])
  | k :: ks =>
    let r := forceOff k s
    let r2 := foldForce ks r.1
    (r2.1, r.2 ++ r2.2)

/-- `forceAllOff()` of part_000: `forceOff` every key in a snapshot of
the table, then clear the sustain pool. -/
def forceAllOff (s : PState) : PState × List AudioAction :=
  let r := foldForce (s.active.map Prod.fst) s
  ({ r.1 with sustainPool := [] }, r.2)

/-- `forceSilence` of part_000: the handler installed on window
`pointerup` / `touchend` / `touchcancel` / `orientationchange` /
`visibilitychange` and on the 3-second `setInterval`; it just calls
`forceAllOff`. -/
def forceSilence (s : PState) : PState × List AudioAction :=
  forceAllOff s

/-- The loop `for (const k of Array.from(active.keys())) noteOff(k)`. -/
def foldNoteOff (keys : List String) (s : PState) : PState × List AudioAction :=
  match keys with
  | [] => (s, [])
  | k :: ks =>
    let r := noteOff k s
    let r2 := foldNoteOff ks r.1
    (r2.1, r.2 ++ r2.2)

/-- `allNotesOff()` of part_000 (the `beforeunload` handler): `noteOff`
every key in a snapshot of the table, then clear the sustain pool. -/
def allNotesOff (s : PState) : PState × List AudioAction :=
  let r := foldNoteOff (s.active.map Prod.fst) s
  ({ r.1 with sustainPool := [] }, r.2)

/-- The body of the pedal-up sweep in part_000's `sustainCb.onchange`:
`for (const key of Array.from(active.keys())) if (!heldKeys.has(key))
forceOff(key)`. -/
def foldSustainSweep (keys : List String) (s : PState) : PState × List AudioAction :=
  match keys with
  | [] => (s, [])
  | k :: ks =>
    if k ∈ s.heldKeys then foldSustainSweep ks s
    else
      let r := forceOff k s
      let r2 := foldSustainSweep ks r.1
      (r2.1, r.2 ++ r2.2)

/-- `sustainCb.onchange` of part_000: record the new pedal state; on a
down-to-up transition, force off every active key that is not
physically held, then clear the sustain pool. -/
def sustainOnChange (checked : Bool) (s : PState) : PState × List AudioAction :=
  let prev := s.sustain
  let s1 := { s with sustain := checked }
  if prev && !checked then
    let r := foldSustainSweep (s1.active.map Prod.fst) s1
    ({ r.1 with sustainPool := [] }, r.2)
  else
    (s1, [])

end Part000

/-- The JS regex class `\d`: the characters `'0'` through `'9'`. -/
def isDigitCh (c : Char) : Bool :=
  '0' ≤ c && c ≤ '9'

/-- Numeric value of a decimal digit character. -/
def digitVal (c : Char) : Int :=
  (c.toNat : Int) - ('0'.toNat : Int)

/-- The regex class `[A-G]` combined with the base-semitone lookup
`{C:0, D:2, E:4, F:5, G:7, A:9, B:11}[L]` of `noteToMidi`. -/
def letterBase (c : Char) : Option Int :=
  if c = 'C' then some 0
  else if c = 'D' then some 2
  else if c = 'E' then some 4
  else if c = 'F' then some 5
  else if c = 'G' then some 7
  else if c = 'A' then some 9
  else if c = 'B' then some 11
  else none

/-- `noteToMidi(note)` (identical in part_000 and piano.js): match the
note string against `^([A-G])(#|b)?(\d)$`; on failure return `null`;
on success return `(octave+1)*12 + base + accidentalShift`. -/
def noteToMidi (note : String) : Option Int :=
  match note.data with
  | [l, d] =>
    match letterBase l with
    | some base => if isDigitCh d then some ((digitVal d + 1) * 12 + base) else none
    | none => none
  | [l, a, d] =>
    match letterBase l with
    | some base =>
      if (a == '#' || a == 'b') && isDigitCh d then
        some ((digitVal d + 1) * 12 + (base + (if a == '#' then 1 else -1)))
      else none
    | none => none
  | _ => none

/-- Decimal digit characters of a natural number, most significant
first, with explicit structural fuel (adequate whenever `n < fuel`). -/
def natStrAux : Nat → Nat → List Char
  | 0, _ => []
  | fuel + 1, n =>
    if n < 10 then [Nat.digitChar n]
    else natStrAux fuel (n / 10) ++ [Nat.digitChar (n % 10)]

/-- Decimal digit characters of a natural number. -/
def natChars (n : Nat) : List Char :=
  natStrAux (n + 1) n

/-- JS number-to-string coercion for integers, as triggered by the
string concatenations in `midiToNote` and `activate`. -/
def intStr (i : Int) : String :=
  if i < 0 then ⟨'-' :: natChars (-i).toNat⟩ else ⟨natChars i.toNat⟩

/-- A sharp-spelled pitch-class name: the letter followed by `#`. -/
def sharpOf (letter : String) : String :=
  letter ++ "#"

/-- The `NAMES` array of pitch-class names,
`['C','C#','D','D#','E','F','F#','G','G#','A','A#','B']`. -/
def NAMES : List String :=
  ["C", sharpOf "C", "D", sharpOf "D", "E", "F", sharpOf "F",
   "G", sharpOf "G", "A", sharpOf "A", "B"]

/-- `midiToNote(m)` (identical in part_000 and piano.js):
`NAMES[m % 12] + (Math.floor(m / 12) - 1)`.  Modelled for natural `m`
(the JS callers only pass non-negative midi numbers). -/
def midiToNote (m : Nat) : String :=
  NAMES.getD (m % 12) "" ++ intStr ((m / 12 : Nat) - 1)

/-- `midiToFreq(m) = 440 * Math.pow(2, (m - 69) / 12)`, modelled over
the reals. -/
noncomputable def midiToFreq (m : ℝ) : ℝ :=
  440 * (2 : ℝ) ^ ((m - 69) / 12)

/-- `'m' + midi` of part_000's `activate`: the JS string concatenation
of `'m'` with the result of `noteToMidi`, which is `null` for an
unmapped note string; `'m' + null` evaluates to the string `"mnull"`. -/
def jsKey (midi : Option Int) : String :=
  match midi with
  | some m => "m" ++ intStr m
  | none => "mnull"

namespace Part000

/-- `activate(el, e)` of part_000 (minus the audio-context resume, the
DOM class toggling, and the velocity computation, none of which touch
the lifecycle state): look up the element's note name, convert it with
`noteToMidi`, build the voice key `'m' + midi`, add it to `heldKeys`,
and call `noteOn`.  There is no check for a failed (`null`)
conversion. -/
def activate (note : String) (s : PState) : PState × List AudioAction :=
  let midi := noteToMidi note
  let key := jsKey midi
  noteOn key { s with heldKeys := setAdd key s.heldKeys }

end Part000

namespace PianoJs

/-- Claim-relevant state of the `src/piano.js` engine: this variant has
no held-key set at all. -/
structure JState where
  active : List (String × Nat)
  sustain : Bool
  sustainPool : List String
  nextId : Nat
deriving DecidableEq, Repr

/-- Initial state. -/
def init : JState := ⟨[], false, [], 0⟩

/-- `noteOn(key, freq, vel)` of piano.js: creates, ramps and starts a
fresh voice and stores it in the table.  Unlike part_000, it does NOT
stop a previously existing voice for the same key; the old `{osc,gain}`
pair is simply overwritten in the map and keeps sounding. -/
def noteOn (key : String) (s : JState) : JState × List AudioAction :=
  ({ s with active := mapSet key s.nextId s.active, nextId := s.nextId + 1 },
   [AudioAction.startVoice s.nextId])

/-- `noteOff(key)` of piano.js: same logic as part_000's `noteOff`. -/
def noteOff (key : String) (s : JState) : JState × List AudioAction :=
  match mapGet key s.active with
  | none => (s, [])
  | some v =>
    if s.sustain then
      ({ s with sustainPool := setAdd key s.sustainPool }, [])
    else
      ({ s with active := mapDelete key s.active }, [AudioAction.fadeOut v])

/-- The loop `for (const k of active.keys()) noteOff(k)` (the body of
the window `pointerup` / `touchend` / `touchcancel` /
`orientationchange` / `visibilitychange` handlers of piano.js). -/
def foldNoteOff (keys : List String) (s : JState) : JState × List AudioAction :=
  match keys with
  | [] => (s, [])
  | k :: ks =>
    let r := noteOff k s
    let r2 := foldNoteOff ks r.1
    (r2.1, r.2 ++ r2.2)

/-- The piano.js mobile-safety handler on window `pointerup` (and
`touchend` / `touchcancel`): `for (const k of active.keys())
noteOff(k)`. -/
def pointerupHandler (s : JState) : JState × List AudioAction :=
  foldNoteOff (s.active.map Prod.fst) s

/-- The loop body of the piano.js 3-second sweep over the table
entries. -/
def sweepGo (audible : Nat → Bool) : List (String × Nat) → JState → JState × List AudioAction
  | [], s => (s, [])
  | e :: es, s =>
    if audible e.2 then
      let r := noteOff e.1 s
      let r2 := sweepGo audible es r.1
      (r2.1, r.2 ++ r2.2)
    else
      sweepGo audible es s

/-- The piano.js 3-second `setInterval` sweep: `for (const [key, voice]
of active) { if (voice.gain.gain.value > 0.0001) noteOff(key); }`.  The
runtime amplitude test `gain.value > 0.0001` is modelled by the
environment predicate `audible` on the voice identity. -/
def sweep (audible : Nat → Bool) (s : JState) : JState × List AudioAction :=
  sweepGo audible s.active s

/-- `allNotesOff()` of piano.js (the `beforeunload` handler): `noteOff`
every key of the table, then clear the sustain pool. -/
def allNotesOff (s : JState) : JState × List AudioAction :=
  let r := foldNoteOff (s.active.map Prod.fst) s
  ({ r.1 with sustainPool := [] }, r.2)

/-- `sustainCb.onchange` of piano.js: record the new pedal state; when
the box is now unchecked, `noteOff` every key in the sustain pool
(there is no held-key check in this variant) and clear the pool. -/
def sustainOnChange (checked : Bool) (s : JState) : JState × List AudioAction :=
  let s1 := { s with sustain := checked }
  if !checked then
    let r := foldNoteOff s1.sustainPool s1
    ({ r.1 with sustainPool := [] }, r.2)
  else
    (s1, [])

end PianoJs

/-! ### Basic facts about the JS `Map` / `Set` model -/

theorem mapGet_eq_none_iff (k : String) (m : List (String × Nat)) :
    mapGet k m = none ↔ ∀ p ∈ m, p.1 ≠ k := by
  simp [mapGet, List.find?_eq_none]

theorem mapGet_mem (k : String) (m : List (String × Nat)) (v : Nat)
    (h : mapGet k m = some v) : (k, v) ∈ m := by
  simp only [mapGet, Option.map_eq_some'] at h
  obtain ⟨p, hp, hv⟩ := h
  have hmem := List.mem_of_find?_eq_some hp
  have hkey := List.find?_some hp
  simp only [beq_iff_eq] at hkey
  cases p
  simp_all

theorem mapGet_of_mem_nodup (k : String) (m : List (String × Nat)) (v : Nat)
    (hnd : (m.map Prod.fst).Nodup) (hmem : (k, v) ∈ m) : mapGet k m = some v := by
  induction m with
  | nil => simp at hmem
  | cons p ps ih =>
    simp only [List.map_cons, List.nodup_cons] at hnd
    rcases List.mem_cons.mp hmem with h | h
    · subst h
      simp [mapGet, List.find?]
    · have hne : p.1 ≠ k := by
        intro heq
        exact hnd.1 (heq ▸ (List.mem_map.mpr ⟨(k, v), h, rfl⟩))
      have := ih hnd.2 h
      simpa [mapGet, List.find?_cons, hne] using this

theorem mapGet_mapSet_self (k : String) (v : Nat) (m : List (String × Nat)) :
    mapGet k (mapSet k v m) = some v := by
  unfold mapSet
  by_cases h : m.any (fun p => p.1 == k)
  · simp only [h, if_true]
    simp only [List.any_eq_true, beq_iff_eq] at h
    obtain ⟨p, hp, hpk⟩ := h
    induction m with
    | nil => simp at hp
    | cons q qs ih =>
      rcases List.mem_cons.mp hp with hq | hq
      · subst hq
        simp [mapGet, List.find?, hpk]
      · by_cases hqk : q.1 = k
        · simp [mapGet, List.find?, hqk]
        · simp only [List.map_cons, if_neg hqk]
          have := ih hq
          simpa [mapGet, List.find?_cons, hqk] using this
  · simp only [h, if_false]
    simp only [List.any_eq_true, beq_iff_eq, not_exists, not_and] at h
    induction m with
    | nil => simp [mapGet, List.find?]
    | cons q qs ih =>
      have hqk : ¬ q.1 = k := h q (List.mem_cons_self q qs)
      have := ih (fun p hp => h p (List.mem_cons_of_mem q hp))
      simpa [mapGet, List.find?_cons, hqk] using this

theorem mapDelete_sub (k : String) (m : List (String × Nat)) :
    ∀ p ∈ mapDelete k m, p ∈ m ∧ p.1 ≠ k := by
  intro p hp
  simp only [mapDelete, List.mem_filter, bne_iff_ne] at hp
  exact hp

theorem mapGet_mapDelete_self (k : String) (m : List (String × Nat)) :
    mapGet k (mapDelete k m) = none := by
  rw [mapGet_eq_none_iff]
  intro p hp
  exact (mapDelete_sub k m p hp).2

theorem mapDelete_eq_self (k : String) (m : List (String × Nat))
    (h : mapGet k m = none) : mapDelete k m = m := by
  rw [mapGet_eq_none_iff] at h
  unfold mapDelete
  exact List.filter_eq_self.mpr (fun p hp => by simpa using h p hp)

theorem setDelete_eq_self (k : String) (s : List String) (h : k ∉ s) :
    setDelete k s = s := by
  unfold setDelete
  refine List.filter_eq_self.mpr (fun x hx => ?_)
  simp only [bne_iff_ne]
  rintro rfl
  exact h hx

theorem mem_setAdd (x k : String) (s : List String) :
    x ∈ setAdd k s ↔ x = k ∨ x ∈ s := by
  unfold setAdd
  by_cases h : k ∈ s
  · simp only [h, if_true]
    constructor
    · exact fun hx => Or.inr hx
    · rintro (rfl | hx)
      · exact h
      · exact hx
  · simp [h, List.mem_append, or_comm]

theorem mem_setDelete (x k : String) (s : List String) :
    x ∈ setDelete k s ↔ x ∈ s ∧ x ≠ k := by
  simp [setDelete, List.mem_filter]

theorem keys_mapSet (k : String) (v : Nat) (m : List (String × Nat)) :
    (mapSet k v m).map Prod.fst =
      if k ∈ m.map Prod.fst then m.map Prod.fst else m.map Prod.fst ++ [k] := by
  unfold mapSet
  have hmem : (m.any (fun p => p.1 == k)) = true ↔ k ∈ m.map Prod.fst := by
    simp only [List.any_eq_true, beq_iff_eq, List.mem_map]
  by_cases h : m.any (fun p => p.1 == k)
  · rw [if_pos h, if_pos (hmem.mp h), List.map_map]
    refine List.map_congr_left (fun p _ => ?_)
    by_cases hpk : p.1 = k
    · simp [Function.comp, hpk]
    · simp [Function.comp, hpk]
  · have h' : k ∉ m.map Prod.fst := fun hc => h (hmem.mpr hc)
    rw [if_neg h, if_neg h']
    simp

theorem keys_mapDelete_sub (k : String) (m : List (String × Nat)) :
    ∀ x ∈ (mapDelete k m).map Prod.fst, x ∈ m.map Prod.fst ∧ x ≠ k := by
  intro x hx
  obtain ⟨p, hp, rfl⟩ := List.mem_map.mp hx
  obtain ⟨hpm, hpk⟩ := mapDelete_sub k m p hp
  exact ⟨List.mem_map.mpr ⟨p, hpm, rfl⟩, hpk⟩

/-! ### Behaviour of the part_000 force-off sweeps -/

theorem forceOff_none (k : String) (s : Part000.PState) (h : mapGet k s.active = none) :
    Part000.forceOff k s = (s, []) := by
  simp [Part000.forceOff, h]

theorem noteOff_none (k : String) (s : Part000.PState)
    (h : mapGet k s.active = none) : Part000.noteOff k s = (s, []) := by
  simp [Part000.noteOff, h]

theorem forceOff_some (k : String) (s : Part000.PState) (v : Nat)
    (h : mapGet k s.active = some v) :
    Part000.forceOff k s =
      ({ s with active := mapDelete k s.active,
                sustainPool := setDelete k s.sustainPool,
                heldKeys := setDelete k s.heldKeys },
       [AudioAction.fadeOut v]) := by
  simp [Part000.forceOff, h]

theorem forceOff_active_sub (k : String) (s : Part000.PState) :
    ∀ p ∈ (Part000.forceOff k s).1.active, p ∈ s.active ∧ p.1 ≠ k := by
  intro p hp
  cases hget : mapGet k s.active with
  | none =>
    rw [forceOff_none k s hget] at hp
    exact ⟨hp, (mapGet_eq_none_iff k s.active).mp hget p hp⟩
  | some v =>
    rw [forceOff_some k s v hget] at hp
    exact mapDelete_sub k s.active p hp

theorem forceOff_active_mem (k : String) (s : Part000.PState) (p : String × Nat)
    (hp : p ∈ s.active) (hpk : p.1 ≠ k) : p ∈ (Part000.forceOff k s).1.active := by
  cases hget : mapGet k s.active with
  | none => rw [forceOff_none k s hget]; exact hp
  | some v =>
    rw [forceOff_some k s v hget]
    exact List.mem_filter.mpr ⟨hp, by simp [hpk]⟩

theorem forceOff_nodup (k : String) (s : Part000.PState)
    (h : (s.active.map Prod.fst).Nodup) :
    ((Part000.forceOff k s).1.active.map Prod.fst).Nodup := by
  cases hget : mapGet k s.active with
  | none => rw [forceOff_none k s hget]; exact h
  | some v =>
    rw [forceOff_some k s v hget]
    exact ((List.filter_sublist s.active).map Prod.fst).nodup h

theorem foldForce_active_nil (keys : List String) :
    ∀ s : Part000.PState, (∀ p ∈ s.active, p.1 ∈ keys) →
      (Part000.foldForce keys s).1.active = [] := by
  induction keys with
  | nil =>
    intro s h
    have : s.active = [] :=
      List.eq_nil_iff_forall_not_mem.mpr (fun p hp => by simpa using h p hp)
    simp [Part000.foldForce, this]
  | cons k ks ih =>
    intro s h
    simp only [Part000.foldForce]
    apply ih
    intro p hp
    obtain ⟨hps, hpk⟩ := forceOff_active_sub k s p hp
    rcases List.mem_cons.mp (h p hps) with hc | hc
    · exact absurd hc hpk
    · exact hc

theorem foldForce_fades (keys : List String) :
    ∀ s : Part000.PState, (s.active.map Prod.fst).Nodup →
      (∀ p ∈ s.active, p.1 ∈ keys) →
      ∀ p ∈ s.active, AudioAction.fadeOut p.2 ∈ (Part000.foldForce keys s).2 := by
  induction keys with
  | nil =>
    intro s _ h p hp
    exact absurd (h p hp) (List.not_mem_nil p.1)
  | cons k ks ih =>
    intro s hnd h p hp
    simp only [Part000.foldForce, List.mem_append]
    by_cases hpk : p.1 = k
    · left
      have hmem : (k, p.2) ∈ s.active := by
        cases p with
        | mk a b => rw [← hpk]; exact hp
      have hget : mapGet k s.active = some p.2 := mapGet_of_mem_nodup k s.active p.2 hnd hmem
      rw [forceOff_some k s p.2 hget]
      simp
    · right
      have hp' : p ∈ (Part000.forceOff k s).1.active := forceOff_active_mem k s p hp hpk
      refine ih (Part000.forceOff k s).1 (forceOff_nodup k s hnd) ?_ p hp'
      intro q hq
      obtain ⟨hqs, hqk⟩ := forceOff_active_sub k s q hq
      rcases List.mem_cons.mp (h q hqs) with hc | hc
      · exact absurd hc hqk
      · exact hc

theorem forceAllOff_active (s : Part000.PState) :
    (Part000.forceAllOff s).1.active = [] := by
  simp only [Part000.forceAllOff]
  exact foldForce_active_nil (s.active.map Prod.fst) s
    (fun p hp => List.mem_map.mpr ⟨p, hp, rfl⟩)

theorem forceAllOff_pool (s : Part000.PState) :
    (Part000.forceAllOff s).1.sustainPool = [] := rfl

theorem forceAllOff_fades (s : Part000.PState) (hnd : (s.active.map Prod.fst).Nodup) :
    ∀ p ∈ s.active, AudioAction.fadeOut p.2 ∈ (Part000.forceAllOff s).2 := by
  intro p hp
  simp only [Part000.forceAllOff]
  exact foldForce_fades (s.active.map Prod.fst) s hnd
    (fun q hq => List.mem_map.mpr ⟨q, hq, rfl⟩) p hp

/-! ### Behaviour of the part_000 pedal-up sweep -/

theorem foldSustainSweep_spec (keys : List String) :
    ∀ s : Part000.PState,
      (Part000.foldSustainSweep keys s).1.heldKeys = s.heldKeys ∧
      (Part000.foldSustainSweep keys s).1.sustain = s.sustain ∧
      (Part000.foldSustainSweep keys s).1.nextId = s.nextId ∧
      (Part000.foldSustainSweep keys s).1.active
        = s.active.filter (fun p => decide (p.1 ∉ keys ∨ p.1 ∈ s.heldKeys)) := by
  induction keys with
  | nil =>
    intro s
    refine ⟨rfl, rfl, rfl, ?_⟩
    exact (List.filter_eq_self.mpr (fun p _ => by simp)).symm
  | cons k ks ih =>
    intro s
    by_cases hk : k ∈ s.heldKeys
    · simp only [Part000.foldSustainSweep, if_pos hk]
      obtain ⟨h1, h2, h3, h4⟩ := ih s
      refine ⟨h1, h2, h3, ?_⟩
      rw [h4]
      refine List.filter_congr (fun p _ => ?_)
      apply decide_eq_decide.mpr
      constructor
      · intro hc
        rcases hc with hc | hc
        · by_cases hpk : p.1 = k
          · exact Or.inr (hpk ▸ hk)
          · exact Or.inl (by simp [hpk, hc])
        · exact Or.inr hc
      · intro hc
        rcases hc with hc | hc
        · exact Or.inl (fun hm => hc (List.mem_cons_of_mem k hm))
        · exact Or.inr hc
    · simp only [Part000.foldSustainSweep, if_neg hk]
      cases hget : mapGet k s.active with
      | none =>
        rw [forceOff_none k s hget]
        obtain ⟨h1, h2, h3, h4⟩ := ih s
        refine ⟨h1, h2, h3, ?_⟩
        rw [h4]
        refine List.filter_congr (fun p hp => ?_)
        apply decide_eq_decide.mpr
        have hpk : p.1 ≠ k := (mapGet_eq_none_iff k s.active).mp hget p hp
        constructor
        · intro hc
          rcases hc with hc | hc
          · exact Or.inl (by simp [hpk, hc])
          · exact Or.inr hc
        · intro hc
          rcases hc with hc | hc
          · exact Or.inl (fun hm => hc (List.mem_cons_of_mem k hm))
          · exact Or.inr hc
      | some v =>
        rw [forceOff_some k s v hget]
        obtain ⟨h1, h2, h3, h4⟩ :=
          ih { s with active := mapDelete k s.active,
                      sustainPool := setDelete k s.sustainPool,
                      heldKeys := setDelete k s.heldKeys }
        have hheld : setDelete k s.heldKeys = s.heldKeys := setDelete_eq_self k s.heldKeys hk
        refine ⟨by rw [h1]; exact hheld, h2, h3, ?_⟩
        rw [h4]
        simp only [hheld, mapDelete, List.filter_filter]
        refine List.filter_congr (fun p _ => ?_)
        by_cases hpk : p.1 = k
        · have hph : p.1 ∉ s.heldKeys := hpk ▸ hk
          simp [hpk, hph, hk]
        · have hbne : (p.1 != k) = true := by simp [hpk]
          rw [hbne]
          simp only [Bool.true_and, Bool.and_true]
          apply decide_eq_decide.mpr
          constructor
          · intro hc
            rcases hc with hc | hc
            · exact Or.inl (by simp [hpk, hc])
            · exact Or.inr hc
          · intro hc
            rcases hc with hc | hc
            · exact Or.inl (fun hm => hc (List.mem_cons_of_mem k hm))
            · exact Or.inr hc

theorem sustainOnChange_up (s : Part000.PState) (hs : s.sustain = true) :
    (Part000.sustainOnChange false s).1.active
        = s.active.filter (fun p => decide (p.1 ∈ s.heldKeys)) ∧
    (Part000.sustainOnChange false s).1.heldKeys = s.heldKeys ∧
    (Part000.sustainOnChange false s).1.sustain = false ∧
    (Part000.sustainOnChange false s).1.sustainPool = [] ∧
    (Part000.sustainOnChange false s).1.nextId = s.nextId := by
  have hred : Part000.sustainOnChange false s
      = ({ (Part000.foldSustainSweep (s.active.map Prod.fst)
              { s with sustain := false }).1 with sustainPool := [] },
         (Part000.foldSustainSweep (s.active.map Prod.fst) { s with sustain := false }).2) := by
    simp only [Part000.sustainOnChange, hs]
    rfl
  obtain ⟨h1, h2, h3, h4⟩ :=
    foldSustainSweep_spec (s.active.map Prod.fst) ({ s with sustain := false } : Part000.PState)
  rw [hred]
  refine ⟨?_, h1, h2, rfl, h3⟩
  show (Part000.foldSustainSweep (s.active.map Prod.fst) { s with sustain := false }).1.active = _
  rw [h4]
  refine List.filter_congr (fun p hp => ?_)
  apply decide_eq_decide.mpr
  have hmem : p.1 ∈ s.active.map Prod.fst := List.mem_map.mpr ⟨p, hp, rfl⟩
  constructor
  · intro hc
    rcases hc with hc | hc
    · exact absurd hmem hc
    · exact hc
  · exact fun hc => Or.inr hc

/-! ### Behaviour of the piano.js safety handlers -/

theorem jsNoteOff_sustain (k : String) (s : PianoJs.JState) (hs : s.sustain = true) :
    (PianoJs.noteOff k s).1.active = s.active ∧
    (PianoJs.noteOff k s).1.sustain = true ∧
    (PianoJs.noteOff k s).2 = [] := by
  cases hget : mapGet k s.active with
  | none => simp [PianoJs.noteOff, hget, hs]
  | some v => simp [PianoJs.noteOff, hget, hs]

theorem jsFoldNoteOff_sustain (keys : List String) :
    ∀ s : PianoJs.JState, s.sustain = true →
      (PianoJs.foldNoteOff keys s).1.active = s.active ∧
      (PianoJs.foldNoteOff keys s).1.sustain = true ∧
      (PianoJs.foldNoteOff keys s).2 = [] := by
  induction keys with
  | nil => intro s hs; exact ⟨rfl, hs, rfl⟩
  | cons k ks ih =>
    intro s hs
    obtain ⟨g1, g2, g3⟩ := jsNoteOff_sustain k s hs
    obtain ⟨h1, h2, h3⟩ := ih (PianoJs.noteOff k s).1 g2
    simp only [PianoJs.foldNoteOff]
    exact ⟨h1.trans g1, h2, by rw [g3, h3]; rfl⟩

theorem jsSweepGo_sustain (audible : Nat → Bool) (entries : List (String × Nat)) :
    ∀ s : PianoJs.JState, s.sustain = true →
      (PianoJs.sweepGo audible entries s).1.active = s.active ∧
      (PianoJs.sweepGo audible entries s).1.sustain = true ∧
      (PianoJs.sweepGo audible entries s).2 = [] := by
  induction entries with
  | nil => intro s hs; exact ⟨rfl, hs, rfl⟩
  | cons e es ih =>
    intro s hs
    by_cases ha : audible e.2
    · obtain ⟨g1, g2, g3⟩ := jsNoteOff_sustain e.1 s hs
      obtain ⟨h1, h2, h3⟩ := ih (PianoJs.noteOff e.1 s).1 g2
      simp only [PianoJs.sweepGo, ha, if_true]
      exact ⟨h1.trans g1, h2, by rw [g3, h3]; rfl⟩
    · simp only [PianoJs.sweepGo, ha, if_false]
      exact ih s hs

theorem jsNoteOff_nosustain (k : String) (s : PianoJs.JState) (hs : s.sustain = false) :
    (PianoJs.noteOff k s).1.active = s.active.filter (fun p => p.1 != k) ∧
    (PianoJs.noteOff k s).1.sustain = false ∧
    (PianoJs.noteOff k s).1.sustainPool = s.sustainPool := by
  cases hget : mapGet k s.active with
  | none =>
    refine ⟨?_, by simp [PianoJs.noteOff, hget, hs], by simp [PianoJs.noteOff, hget]⟩
    have : s.active.filter (fun p => p.1 != k) = s.active :=
      List.filter_eq_self.mpr (fun p hp => by
        simpa using (mapGet_eq_none_iff k s.active).mp hget p hp)
    simp [PianoJs.noteOff, hget, this]
  | some v => simp [PianoJs.noteOff, hget, hs, mapDelete]

theorem jsFoldNoteOff_nosustain (keys : List String) :
    ∀ s : PianoJs.JState, s.sustain = false →
      (PianoJs.foldNoteOff keys s).1.active
          = s.active.filter (fun p => decide (p.1 ∉ keys)) ∧
      (PianoJs.foldNoteOff keys s).1.sustain = false ∧
      (PianoJs.foldNoteOff keys s).1.sustainPool = s.sustainPool := by
  induction keys with
  | nil =>
    intro s hs
    refine ⟨?_, hs, rfl⟩
    exact (List.filter_eq_self.mpr (fun p _ => by simp)).symm
  | cons k ks ih =>
    intro s hs
    obtain ⟨g1, g2, g3⟩ := jsNoteOff_nosustain k s hs
    obtain ⟨h1, h2, h3⟩ := ih (PianoJs.noteOff k s).1 g2
    simp only [PianoJs.foldNoteOff]
    refine ⟨?_, h2, h3.trans g3⟩
    rw [h1, g1, List.filter_filter]
    refine List.filter_congr (fun p _ => ?_)
    by_cases hpk : p.1 = k
    · simp [hpk]
    · have hbne : (p.1 != k) = true := by simp [hpk]
      rw [hbne]
      simp only [Bool.true_and, Bool.and_true]
      apply decide_eq_decide.mpr
      constructor
      · intro hc hm
        rcases List.mem_cons.mp hm with hc2 | hc2
        · exact hpk hc2
        · exact hc hc2
      · exact fun hc hm => hc (List.mem_cons_of_mem k hm)

/-! ### Facts about the decimal digit strings produced by `intStr` -/

theorem natStrAux_ne_nil (fuel n : Nat) (h : 0 < fuel) : natStrAux fuel n ≠ [] := by
  match fuel, h with
  | f + 1, _ =>
    unfold natStrAux
    by_cases hn : n < 10
    · simp [hn]
    · simp [hn]

theorem digitChar_isDigit (n : Nat) (h : n < 10) : isDigitCh (Nat.digitChar n) = true := by
  have : ∀ m : Nat, m < 10 → isDigitCh (Nat.digitChar m) = true := by decide
  exact this n h

theorem natStrAux_digits (fuel : Nat) :
    ∀ (n : Nat) (c : Char), c ∈ natStrAux fuel n → isDigitCh c = true := by
  induction fuel with
  | zero => intro n c hc; simp [natStrAux] at hc
  | succ f ih =>
    intro n c hc
    unfold natStrAux at hc
    by_cases hn : n < 10
    · simp only [hn, if_true, List.mem_singleton] at hc
      exact hc ▸ digitChar_isDigit n hn
    · simp only [hn, if_false, List.mem_append, List.mem_singleton] at hc
      rcases hc with hc | hc
      · exact ih (n / 10) c hc
      · exact hc ▸ digitChar_isDigit (n % 10) (Nat.mod_lt n (by norm_num))

theorem natChars_two_le (n : Nat) (h : 10 ≤ n) : 2 ≤ (natChars n).length := by
  unfold natChars natStrAux
  have hn : ¬ n < 10 := by omega
  simp only [hn, if_false, List.length_append, List.length_singleton]
  have : natStrAux n (n / 10) ≠ [] := natStrAux_ne_nil n (n / 10) (by omega)
  have : 0 < (natStrAux n (n / 10)).length := List.length_pos.mpr this
  omega

theorem natChars_digits (n : Nat) (c : Char) (hc : c ∈ natChars n) : isDigitCh c = true :=
  natStrAux_digits (n + 1) n c hc

/-- When `noteToMidi` sees a three-character string whose second
character is a decimal digit, the optional-accidental group cannot
match, so the regex fails. -/
theorem noteToMidi_three (c1 c2 c3 : Char) (h : isDigitCh c2 = true) :
    noteToMidi ⟨[c1, c2, c3]⟩ = none := by
  have h2 : (c2 == '#') = false := by
    by_cases hc : c2 = '#'
    · subst hc; exact absurd h (by decide)
    · exact beq_false_of_ne hc
  have h3 : (c2 == 'b') = false := by
    by_cases hc : c2 = 'b'
    · subst hc; exact absurd h (by decide)
    · exact beq_false_of_ne hc
  unfold noteToMidi
  cases hlb : letterBase c1 <;> simp [hlb, h2, h3]

/-- Strings of four or more characters never match
`^([A-G])(#|b)?(\d)$`. -/
theorem noteToMidi_four (c1 c2 c3 c4 : Char) (rest : List Char) :
    noteToMidi ⟨c1 :: c2 :: c3 :: c4 :: rest⟩ = none := rfl

/-- A duplicate-free table has exactly one entry for each present key. -/
theorem filter_key_of_nodup (m : List (String × Nat)) (k : String)
    (hnd : (m.map Prod.fst).Nodup) (hk : k ∈ m.map Prod.fst) :
    (m.filter (fun p => p.1 == k)).length = 1 := by
  induction m with
  | nil => simp at hk
  | cons p ps ih =>
    simp only [List.map_cons, List.nodup_cons] at hnd
    by_cases hpk : p.1 = k
    · have hnone : ps.filter (fun q => q.1 == k) = [] := by
        refine List.filter_eq_nil_iff.mpr (fun q hq => ?_)
        simp only [beq_iff_eq]
        intro hqk
        have hmem : q.1 ∈ ps.map Prod.fst := List.mem_map.mpr ⟨q, hq, rfl⟩
        rw [hqk, ← hpk] at hmem
        exact hnd.1 hmem
      simp [List.filter_cons, hpk, hnone]
    · rw [List.map_cons] at hk
      rcases List.mem_cons.mp hk with hc | hc
      · exact absurd hc.symm hpk
      · have := ih hnd.2 hc
        simpa [List.filter_cons, hpk] using this

theorem keys_mem_of_mapGet (k : String) (m : List (String × Nat)) (v : Nat)
    (h : mapGet k m = some v) : k ∈ m.map Prod.fst :=
  List.mem_map.mpr ⟨(k, v), mapGet_mem k m v h, rfl⟩

/-- For midi numbers `m ≥ 132` the octave printed by `midiToNote` has
at least two digits, so the resulting name is rejected by
`noteToMidi`. -/
theorem noteToMidi_midiToNote_big (m : Nat) (hm : 132 ≤ m) :
    noteToMidi (midiToNote m) = none := by
  have hdiv : 11 ≤ m / 12 := by omega
  have honn : ¬ (((m / 12 : Nat) : Int) - 1 < 0) := by omega
  have hton : 10 ≤ (((m / 12 : Nat) : Int) - 1).toNat := by omega
  have hdata : (intStr (((m / 12 : Nat) : Int) - 1)).data
      = natChars (((m / 12 : Nat) : Int) - 1).toNat := by
    unfold intStr
    rw [if_neg honn]
  have h2 : 2 ≤ (natChars (((m / 12 : Nat) : Int) - 1).toNat).length :=
    natChars_two_le _ hton
  obtain ⟨c1, cs, hc1⟩ :
      ∃ c1 cs, natChars (((m / 12 : Nat) : Int) - 1).toNat = c1 :: cs := by
    cases hL : natChars (((m / 12 : Nat) : Int) - 1).toNat with
    | nil => rw [hL] at h2; simp at h2
    | cons a l => exact ⟨a, l, rfl⟩
  obtain ⟨c2, rest, hc2⟩ : ∃ c2 rest, cs = c2 :: rest := by
    cases hL : cs with
    | nil => rw [hL] at hc1; rw [hc1] at h2; simp at h2
    | cons a l => exact ⟨a, l, rfl⟩
  have hoct : (intStr (((m / 12 : Nat) : Int) - 1)).data = c1 :: c2 :: rest := by
    rw [hdata, hc1, hc2]
  have hd1 : isDigitCh c1 = true := by
    apply natChars_digits (((m / 12 : Nat) : Int) - 1).toNat c1
    rw [hc1]; exact List.mem_cons_self c1 cs
  have hnote : (midiToNote m).data = (NAMES.getD (m % 12) "").data ++ (c1 :: c2 :: rest) := by
    rw [midiToNote, String.data_append, hoct]
  have hname : ∃ L, (NAMES.getD (m % 12) "").data = [L] ∨
      (NAMES.getD (m % 12) "").data = [L, '#'] := by
    rcases (by omega : m % 12 = 0 ∨ m % 12 = 1 ∨ m % 12 = 2 ∨ m % 12 = 3 ∨ m % 12 = 4 ∨
        m % 12 = 5 ∨ m % 12 = 6 ∨ m % 12 = 7 ∨ m % 12 = 8 ∨ m % 12 = 9 ∨ m % 12 = 10 ∨
        m % 12 = 11) with h | h | h | h | h | h | h | h | h | h | h | h <;>
      rw [h]
    · exact ⟨'C', Or.inl rfl⟩
    · exact ⟨'C', Or.inr rfl⟩
    · exact ⟨'D', Or.inl rfl⟩
    · exact ⟨'D', Or.inr rfl⟩
    · exact ⟨'E', Or.inl rfl⟩
    · exact ⟨'F', Or.inl rfl⟩
    · exact ⟨'F', Or.inr rfl⟩
    · exact ⟨'G', Or.inl rfl⟩
    · exact ⟨'G', Or.inr rfl⟩
    · exact ⟨'A', Or.inl rfl⟩
    · exact ⟨'A', Or.inr rfl⟩
    · exact ⟨'B', Or.inl rfl⟩
  obtain ⟨L, hL | hL⟩ := hname
  · rw [hL] at hnote
    cases rest with
    | nil =>
      have hs : midiToNote m = ⟨[L, c1, c2]⟩ := String.ext (by rw [hnote]; rfl)
      rw [hs]
      exact noteToMidi_three L c1 c2 hd1
    | cons c5 rest2 =>
      have hs : midiToNote m = ⟨L :: c1 :: c2 :: c5 :: rest2⟩ := String.ext (by rw [hnote]; rfl)
      rw [hs]
      exact noteToMidi_four L c1 c2 c5 rest2
  · rw [hL] at hnote
    have hs : midiToNote m = ⟨L :: '#' :: c1 :: c2 :: rest⟩ := String.ext (by rw [hnote]; rfl)
    rw [hs]
    exact noteToMidi_four L '#' c1 c2 rest

/-! ### Reachable states of the part_000 engine

The pedal-up theorem for C5 assumes the run-time invariant that sustain
pool keys are sounding and that sounding non-held keys are pooled.
This section shows that the invariant (together with key uniqueness in
the table and an empty pool while the pedal is up) holds in every state
the interactive handlers of part_000 can produce: key press
(`activate` / `keydown`), key release (`deactivate` / `keyup`), the
pedal checkbox, and the mobile-safety `forceSilence` triggers. -/

theorem mem_mapSet (p : String × Nat) (k : String) (v : Nat) (m : List (String × Nat))
    (h : p ∈ mapSet k v m) : p = (k, v) ∨ (p ∈ m ∧ p.1 ≠ k) := by
  unfold mapSet at h
  by_cases hany : m.any (fun q => q.1 == k)
  · rw [if_pos hany] at h
    obtain ⟨q, hq, hpq⟩ := List.mem_map.mp h
    by_cases hqk : q.1 = k
    · left
      rw [← hpq]
      simp [hqk]
    · right
      have : p = q := by rw [← hpq]; simp [hqk]
      rw [this]
      exact ⟨hq, hqk⟩
  · rw [if_neg hany] at h
    rcases List.mem_append.mp h with hm | hm
    · right
      refine ⟨hm, fun hpk => ?_⟩
      apply hany
      simp only [List.any_eq_true, beq_iff_eq]
      exact ⟨p, hm, hpk⟩
    · left
      simpa using hm

theorem keys_mapSet_superset (x k : String) (v : Nat) (m : List (String × Nat))
    (h : x ∈ m.map Prod.fst) : x ∈ (mapSet k v m).map Prod.fst := by
  rw [keys_mapSet]
  by_cases hk : k ∈ m.map Prod.fst
  · rw [if_pos hk]; exact h
  · rw [if_neg hk]; exact List.mem_append.mpr (Or.inl h)

namespace Part000

/-- The effect of a physical key press (pointer `activate` or the
`keydown` handler): `heldKeys.add(key)` then `noteOn(key, …)`. -/
def press (key : String) (s : PState) : PState × List AudioAction :=
  noteOn key { s with heldKeys := setAdd key s.heldKeys }

/-- The effect of a physical key release (pointer `deactivate` or the
`keyup` handler): `heldKeys.delete(key)` then `noteOff(key)`. -/
def release (key : String) (s : PState) : PState × List AudioAction :=
  noteOff key { s with heldKeys := setDelete key s.heldKeys }

/-- `activate` is a `press` of the key derived from the note name. -/
theorem activate_eq_press (note : String) (s : PState) :
    activate note s = press (jsKey (noteToMidi note)) s := rfl

/-- States reachable from start-up through the interactive handlers of
part_000 (the `beforeunload`-only `allNotesOff` excluded, as no further
input is processed after page teardown). -/
inductive Reachable : PState → Prop
  | init : Reachable init
  | press (key : String) (s : PState) : Reachable s → Reachable (press key s).1
  | release (key : String) (s : PState) : Reachable s → Reachable (release key s).1
  | pedal (b : Bool) (s : PState) : Reachable s → Reachable (sustainOnChange b s).1
  | silence (s : PState) : Reachable s → Reachable (forceSilence s).1

/-- The run-time invariant of the part_000 engine: table keys are
unique, every pooled key is sounding, every sounding key that is not
physically held is pooled, and the pool is empty while the pedal is
up. -/
def Inv (s : PState) : Prop :=
  (s.active.map Prod.fst).Nodup ∧
  (∀ k ∈ s.sustainPool, k ∈ s.active.map Prod.fst) ∧
  (∀ p ∈ s.active, p.1 ∉ s.heldKeys → p.1 ∈ s.sustainPool) ∧
  (s.sustain = false → s.sustainPool = [])

end Part000

theorem inv_init : Part000.Inv Part000.init := by
  refine ⟨List.nodup_nil, ?_, ?_, fun _ => rfl⟩ <;> intro x hx <;>
    simp [Part000.init] at hx

theorem inv_press (key : String) (s : Part000.PState) (h : Part000.Inv s) :
    Part000.Inv (Part000.press key s).1 := by
  obtain ⟨h1, h2, h3, h4⟩ := h
  have hactive : (Part000.press key s).1.active = mapSet key s.nextId s.active := rfl
  have hheld : (Part000.press key s).1.heldKeys = setAdd key s.heldKeys := rfl
  have hpool : (Part000.press key s).1.sustainPool = s.sustainPool := rfl
  have hsus : (Part000.press key s).1.sustain = s.sustain := rfl
  refine ⟨?_, ?_, ?_, ?_⟩
  · rw [hactive, keys_mapSet]
    by_cases hk : key ∈ s.active.map Prod.fst
    · rw [if_pos hk]; exact h1
    · rw [if_neg hk]
      exact h1.append (List.nodup_singleton key)
        (fun a ha hb => hk (by rwa [List.mem_singleton.mp hb] at ha))
  · intro k hk
    rw [hpool] at hk
    rw [hactive]
    exact keys_mapSet_superset k key s.nextId s.active (h2 k hk)
  · intro p hp hph
    rw [hactive] at hp
    rw [hheld] at hph
    rw [hpool]
    rcases mem_mapSet p key s.nextId s.active hp with hc | ⟨hc, hck⟩
    · exact absurd ((mem_setAdd p.1 key s.heldKeys).mpr (Or.inl (by rw [hc]))) hph
    · exact h3 p hc (fun hm => hph ((mem_setAdd p.1 key s.heldKeys).mpr (Or.inr hm)))
  · intro hsf
    rw [hpool]
    exact h4 (hsus ▸ hsf)

theorem inv_release (key : String) (s : Part000.PState) (h : Part000.Inv s) :
    Part000.Inv (Part000.release key s).1 := by
  obtain ⟨h1, h2, h3, h4⟩ := h
  unfold Part000.release
  cases hget : mapGet key s.active with
  | none =>
    have hred : Part000.noteOff key { s with heldKeys := setDelete key s.heldKeys }
        = ({ s with heldKeys := setDelete key s.heldKeys }, []) :=
      noteOff_none key _ hget
    rw [hred]
    refine ⟨h1, h2, ?_, h4⟩
    intro p hp hph
    have hpk : p.1 ≠ key := (mapGet_eq_none_iff key s.active).mp hget p hp
    refine h3 p hp (fun hm => hph ?_)
    exact (mem_setDelete p.1 key s.heldKeys).mpr ⟨hm, hpk⟩
  | some v =>
    by_cases hsus : s.sustain
    · have hred : Part000.noteOff key { s with heldKeys := setDelete key s.heldKeys }
          = ({ s with heldKeys := setDelete key s.heldKeys,
                      sustainPool := setAdd key s.sustainPool }, []) := by
        simp [Part000.noteOff, hget, hsus]
      rw [hred]
      refine ⟨h1, ?_, ?_, ?_⟩
      · intro k hk
        rcases (mem_setAdd k key s.sustainPool).mp hk with hc | hc
        · exact hc ▸ keys_mem_of_mapGet key s.active v hget
        · exact h2 k hc
      · intro p hp hph
        by_cases hpk : p.1 = key
        · exact (mem_setAdd p.1 key s.sustainPool).mpr (Or.inl hpk)
        · refine (mem_setAdd p.1 key s.sustainPool).mpr (Or.inr ?_)
          refine h3 p hp (fun hm => hph ?_)
          exact (mem_setDelete p.1 key s.heldKeys).mpr ⟨hm, hpk⟩
      · intro hsf
        exact absurd hsf (by simp [hsus])
    · have hred : Part000.noteOff key { s with heldKeys := setDelete key s.heldKeys }
          = ({ s with heldKeys := setDelete key s.heldKeys,
                      active := mapDelete key s.active }, [AudioAction.fadeOut v]) := by
        simp [Part000.noteOff, hget, hsus]
      rw [hred]
      have hpool : s.sustainPool = [] := h4 (by simpa using hsus)
      refine ⟨?_, ?_, ?_, fun _ => hpool⟩
      · exact ((List.filter_sublist s.active).map Prod.fst).nodup h1
      · intro k hk
        rw [hpool] at hk
        simp at hk
      · intro p hp hph
        obtain ⟨hpm, hpk⟩ := mapDelete_sub key s.active p hp
        have hheld : p.1 ∈ s.heldKeys := by
          by_contra hnm
          have := h3 p hpm hnm
          rw [hpool] at this
          simp at this
        exact absurd ((mem_setDelete p.1 key s.heldKeys).mpr ⟨hheld, hpk⟩) hph

theorem inv_pedal (b : Bool) (s : Part000.PState) (h : Part000.Inv s) :
    Part000.Inv (Part000.sustainOnChange b s).1 := by
  obtain ⟨h1, h2, h3, h4⟩ := h
  cases b with
  | true =>
    have hred : Part000.sustainOnChange true s = ({ s with sustain := true }, []) := by
      simp [Part000.sustainOnChange]
    rw [hred]
    exact ⟨h1, h2, h3, fun hc => by simp at hc⟩
  | false =>
    by_cases hsus : s.sustain = true
    · obtain ⟨hact, hheld, hsf, hpool, _⟩ := sustainOnChange_up s hsus
      refine ⟨?_, ?_, ?_, fun _ => hpool⟩
      · rw [hact]
        exact ((List.filter_sublist s.active).map Prod.fst).nodup h1
      · intro k hk
        rw [hpool] at hk
        simp at hk
      · intro p hp hph
        rw [hact] at hp
        have := (List.mem_filter.mp hp).2
        simp only [decide_eq_true_eq] at this
        rw [hheld] at hph
        exact absurd this hph
    · have hb : s.sustain = false := by simpa using hsus
      have hred : Part000.sustainOnChange false s = ({ s with sustain := false }, []) := by
        simp [Part000.sustainOnChange, hb]
      rw [hred]
      exact ⟨h1, h2, h3, fun _ => h4 hb⟩

theorem inv_silence (s : Part000.PState) (h : Part000.Inv s) :
    Part000.Inv (Part000.forceSilence s).1 := by
  have hact : (Part000.forceSilence s).1.active = [] := forceAllOff_active s
  have hpool : (Part000.forceSilence s).1.sustainPool = [] := rfl
  refine ⟨by rw [hact]; exact List.nodup_nil, ?_, ?_, fun _ => hpool⟩
  · intro k hk; rw [hpool] at hk; simp at hk
  · intro p hp; rw [hact] at hp; simp at hp

/-- Every reachable state of the part_000 engine satisfies the
run-time invariant; in particular the hypotheses of the pedal-up
theorem hold whenever the pedal-up transition can actually fire. -/
theorem reachable_inv (s : Part000.PState) (h : Part000.Reachable s) : Part000.Inv s := by
  induction h with
  | init => exact inv_init
  | press key s _ ih => exact inv_press key s ih
  | release key s _ ih => exact inv_release key s ih
  | pedal b s _ ih => exact inv_pedal b s ih
  | silence s _ ih => exact inv_silence s ih

/-! ## Claim theorems -/

/-- C1 (amended): in the part_000 engine, `noteOn(k)` while a voice
already exists for `k` first stops the prior voice's resource
immediately (`stopNow`, not a fade) and then starts the replacement, so
afterwards the table holds exactly one voice for `k` and, in any
ambient set of sounding resources, the prior resource is silenced and
only the new one is added.  (The piano.js variant omits the prior stop;
see the counterexample.) -/
theorem noteOn_retrigger (s : Part000.PState) (key : String) (v : Nat)
    (hnd : (s.active.map Prod.fst).Nodup) (h : mapGet key s.active = some v) :
    (Part000.noteOn key s).2 = [AudioAction.stopNow v, AudioAction.startVoice s.nextId] ∧
    mapGet key (Part000.noteOn key s).1.active = some s.nextId ∧
    ((Part000.noteOn key s).1.active.filter (fun p => p.1 == key)).length = 1 ∧
    ∀ S : List Nat, sounding S (Part000.noteOn key s).2
        = S.filter (fun x => x != v) ++ [s.nextId] := by
  have hacts : (Part000.noteOn key s).2
      = [AudioAction.stopNow v, AudioAction.startVoice s.nextId] := by
    simp [Part000.noteOn, h]
  have hactive : (Part000.noteOn key s).1.active = mapSet key s.nextId s.active := rfl
  refine ⟨hacts, ?_, ?_, ?_⟩
  · rw [hactive]
    exact mapGet_mapSet_self key s.nextId s.active
  · rw [hactive]
    have hkeys := keys_mapSet key s.nextId s.active
    have hk : key ∈ s.active.map Prod.fst := keys_mem_of_mapGet key s.active v h
    rw [if_pos hk] at hkeys
    exact filter_key_of_nodup _ key (hkeys ▸ hnd) (hkeys ▸ hk)
  · intro S
    rw [hacts]
    rfl

/-- Witness for C1: a concrete re-trigger on a one-voice table. -/
theorem noteOn_retrigger_witness :
    (Part000.noteOn "m60" ⟨[("m60", 0)], ["m60"], false, [], 1⟩).2
        = [AudioAction.stopNow 0, AudioAction.startVoice 1] ∧
    mapGet "m60" (Part000.noteOn "m60" ⟨[("m60", 0)], ["m60"], false, [], 1⟩).1.active
        = some 1 := by
  have h := noteOn_retrigger ⟨[("m60", 0)], ["m60"], false, [], 1⟩ "m60" 0
    (by decide) (by decide)
  exact ⟨h.1, h.2.1⟩

/-- Counterexample for C1 as stated: in piano.js, a re-trigger of the
same key never issues a `stopNow` for the prior voice; after
`noteOn("m60"); noteOn("m60")` from the initial state both resources 0
and 1 are still sounding, so the prior voice was not stopped and two
live voices exist for the key. -/
theorem noteOn_retrigger_cx :
    (PianoJs.noteOn "m60" (PianoJs.noteOn "m60" PianoJs.init).1).2
        = [AudioAction.startVoice 1] ∧
    AudioAction.stopNow 0 ∉
      ((PianoJs.noteOn "m60" PianoJs.init).2
        ++ (PianoJs.noteOn "m60" (PianoJs.noteOn "m60" PianoJs.init).1).2) ∧
    sounding [] ((PianoJs.noteOn "m60" PianoJs.init).2
        ++ (PianoJs.noteOn "m60" (PianoJs.noteOn "m60" PianoJs.init).1).2) = [0, 1] := by
  decide

/-- C2 (amended): in the part_000 engine the 3-second sweep and the
global pointer-up/touch-end handlers all run `forceSilence`
(`forceAllOff`), which bypasses sustain: even with the pedal down the
voice table and the sustain pool end up empty and every previously
sounding voice is issued its silencing automation.  (The piano.js
handlers call `noteOff`, which honors sustain; see the
counterexample.) -/
theorem forceSilence_bypasses_sustain (s : Part000.PState) (hs : s.sustain = true)
    (hnd : (s.active.map Prod.fst).Nodup) :
    (Part000.forceSilence s).1.active = [] ∧
    (Part000.forceSilence s).1.sustainPool = [] ∧
    ∀ p ∈ s.active, AudioAction.fadeOut p.2 ∈ (Part000.forceSilence s).2 :=
  ⟨forceAllOff_active s, rfl, forceAllOff_fades s hnd⟩

/-- Witness for C2: a pedal-down state with one sounding voice. -/
theorem forceSilence_bypasses_sustain_witness :
    (Part000.forceSilence ⟨[("m60", 0)], [], true, ["m60"], 1⟩).1.active = [] ∧
    (Part000.forceSilence ⟨[("m60", 0)], [], true, ["m60"], 1⟩).1.sustainPool = [] ∧
    ∀ p ∈ ([("m60", 0)] : List (String × Nat)),
      AudioAction.fadeOut p.2 ∈ (Part000.forceSilence ⟨[("m60", 0)], [], true, ["m60"], 1⟩).2 :=
  forceSilence_bypasses_sustain ⟨[("m60", 0)], [], true, ["m60"], 1⟩ rfl (by decide)

/-- Counterexample for C2 as stated: in piano.js, with the pedal down,
neither the 3-second sweep (even when the voice is audibly above the
threshold) nor the global pointer-up handler removes the sounding voice
or issues any silencing automation — the voice keeps sounding. -/
theorem forceSilence_bypasses_sustain_cx :
    ((PianoJs.sweep (fun _ => true) ⟨[("m60", 7)], true, [], 8⟩).1.active = [("m60", 7)] ∧
     (PianoJs.sweep (fun _ => true) ⟨[("m60", 7)], true, [], 8⟩).2 = []) ∧
    ((PianoJs.pointerupHandler ⟨[("m60", 7)], true, [], 8⟩).1.active = [("m60", 7)] ∧
     (PianoJs.pointerupHandler ⟨[("m60", 7)], true, [], 8⟩).2 = []) := by
  decide

/-- C3: for every starting state — any pedal position, any contents of
the voice table, held set and sustain pool — `forceAllOff` leaves an
empty voice table and an empty sustain pool. -/
theorem forceAllOff_clears (s : Part000.PState) :
    (Part000.forceAllOff s).1.active = [] ∧ (Part000.forceAllOff s).1.sustainPool = [] :=
  ⟨forceAllOff_active s, rfl⟩

/-- Witness for C3: a pedal-down state with two voices, one held, one
in the sustain pool. -/
theorem forceAllOff_clears_witness :
    (Part000.forceAllOff ⟨[("m60", 0), ("m72", 3)], ["m72"], true, ["m60"], 9⟩).1.active = [] ∧
    (Part000.forceAllOff ⟨[("m60", 0), ("m72", 3)], ["m72"], true, ["m60"], 9⟩).1.sustainPool
        = [] :=
  forceAllOff_clears ⟨[("m60", 0), ("m72", 3)], ["m72"], true, ["m60"], 9⟩

/-- C4: with the pedal down, `noteOff(k)` for a sounding voice only
adds `k` to the sustain pool: the voice stays in the table under the
same resource, the held set, pedal flag and table are untouched, and no
amplitude automation is issued (the voice keeps sounding until a later
pedal-up or force-off acts on it). -/
theorem noteOff_pedal_down (s : Part000.PState) (key : String) (v : Nat)
    (hs : s.sustain = true) (h : mapGet key s.active = some v) :
    Part000.noteOff key s = ({ s with sustainPool := setAdd key s.sustainPool }, []) ∧
    mapGet key (Part000.noteOff key s).1.active = some v := by
  have heq : Part000.noteOff key s
      = ({ s with sustainPool := setAdd key s.sustainPool }, []) := by
    simp [Part000.noteOff, h, hs]
  exact ⟨heq, by rw [heq]; exact h⟩

/-- Witness for C4: pedal down, one sounding voice for "m60". -/
theorem noteOff_pedal_down_witness :
    Part000.noteOff "m60" ⟨[("m60", 0)], ["m60"], true, [], 1⟩
        = (⟨[("m60", 0)], ["m60"], true, ["m60"], 1⟩, []) ∧
    mapGet "m60" (Part000.noteOff "m60" ⟨[("m60", 0)], ["m60"], true, [], 1⟩).1.active
        = some 0 := by
  have h := noteOff_pedal_down ⟨[("m60", 0)], ["m60"], true, [], 1⟩ "m60" 0 rfl (by decide)
  exact ⟨h.1, h.2⟩

/-- C5 (amended): in the part_000 engine, a pedal down-to-up transition
clears the sustain pool and releases exactly the sounding keys that are
in the sustain pool and not physically held (under the run-time
invariant that pool keys are sounding and sounding non-held keys are
pooled); in particular a key re-pressed before pedal-up stays sounding.
(The piano.js pedal-up releases every pool key, held or not; see the
counterexample.) -/
theorem pedalUp_releases (s : Part000.PState) (hs : s.sustain = true)
    (hpool : ∀ k ∈ s.sustainPool, k ∈ s.active.map Prod.fst)
    (hheld : ∀ p ∈ s.active, p.1 ∉ s.heldKeys → p.1 ∈ s.sustainPool) :
    (Part000.sustainOnChange false s).1.sustainPool = [] ∧
    (∀ k, (k ∈ s.active.map Prod.fst ∧
           k ∉ (Part000.sustainOnChange false s).1.active.map Prod.fst)
        ↔ (k ∈ s.sustainPool ∧ k ∉ s.heldKeys)) ∧
    (∀ k ∈ s.heldKeys, k ∈ s.active.map Prod.fst →
        k ∈ (Part000.sustainOnChange false s).1.active.map Prod.fst) := by
  obtain ⟨hact, _, _, hpool', _⟩ := sustainOnChange_up s hs
  refine ⟨hpool', ?_, ?_⟩
  · intro k
    constructor
    · rintro ⟨hk1, hk2⟩
      obtain ⟨p, hp, hpk⟩ := List.mem_map.mp hk1
      have hknh : k ∉ s.heldKeys := by
        intro hkh
        apply hk2
        rw [hact]
        exact List.mem_map.mpr
          ⟨p, List.mem_filter.mpr ⟨hp, by simp [hpk, hkh]⟩, hpk⟩
      exact ⟨hpk ▸ hheld p hp (hpk ▸ hknh), hknh⟩
    · rintro ⟨hk1, hk2⟩
      refine ⟨hpool k hk1, ?_⟩
      rw [hact]
      intro hc
      obtain ⟨p, hp, hpk⟩ := List.mem_map.mp hc
      have := (List.mem_filter.mp hp).2
      simp only [decide_eq_true_eq] at this
      exact hk2 (hpk ▸ this)
  · intro k hkh hka
    obtain ⟨p, hp, hpk⟩ := List.mem_map.mp hka
    rw [hact]
    exact List.mem_map.mpr ⟨p, List.mem_filter.mpr ⟨hp, by simp [hpk, hkh]⟩, hpk⟩

/-- Witness for C5: pedal down, "m60" re-pressed (held, pooled,
sounding), "m64" released under sustain (pooled, sounding, not held). -/
theorem pedalUp_releases_witness :
    (Part000.sustainOnChange false
        ⟨[("m60", 1), ("m64", 2)], ["m60"], true, ["m60", "m64"], 3⟩).1.sustainPool = [] ∧
    (∀ k, (k ∈ ([("m60", 1), ("m64", 2)] : List (String × Nat)).map Prod.fst ∧
           k ∉ (Part000.sustainOnChange false
              ⟨[("m60", 1), ("m64", 2)], ["m60"], true, ["m60", "m64"], 3⟩).1.active.map
                Prod.fst)
        ↔ (k ∈ ["m60", "m64"] ∧ k ∉ ["m60"])) ∧
    (∀ k ∈ ["m60"],
        k ∈ ([("m60", 1), ("m64", 2)] : List (String × Nat)).map Prod.fst →
        k ∈ (Part000.sustainOnChange false
            ⟨[("m60", 1), ("m64", 2)], ["m60"], true, ["m60", "m64"], 3⟩).1.active.map
              Prod.fst) :=
  pedalUp_releases ⟨[("m60", 1), ("m64", 2)], ["m60"], true, ["m60", "m64"], 3⟩
    rfl (by decide) (by decide)

/-- Counterexample for C5 as stated: in piano.js, run the spec's own
scenario — pedal down, NoteOn m60, NoteOff m60 (pooled), NoteOn m60
again (re-press), then pedal up.  The pedal-up sweep releases the
re-pressed key: its current voice is faded out and removed from the
table, although the claim requires re-pressed keys to survive. -/
theorem pedalUp_releases_cx :
    (PianoJs.sustainOnChange false
        (PianoJs.noteOn "m60"
          (PianoJs.noteOff "m60"
            (PianoJs.noteOn "m60"
              (PianoJs.sustainOnChange true PianoJs.init).1).1).1).1).1.active = [] ∧
    (PianoJs.sustainOnChange false
        (PianoJs.noteOn "m60"
          (PianoJs.noteOff "m60"
            (PianoJs.noteOn "m60"
              (PianoJs.sustainOnChange true PianoJs.init).1).1).1).1).2
        = [AudioAction.fadeOut 1] := by
  decide

/-- C6 (amended): `forceOff(k)` for a key with a sounding voice removes
`k` from the table, the held set and the sustain pool regardless of the
pedal state; but for a key with no active voice it returns early and
leaves the held set and the sustain pool untouched. -/
theorem forceOff_characterization (s : Part000.PState) (k : String) :
    (∀ v, mapGet k s.active = some v →
       Part000.forceOff k s =
         ({ s with active := mapDelete k s.active,
                   sustainPool := setDelete k s.sustainPool,
                   heldKeys := setDelete k s.heldKeys }, [AudioAction.fadeOut v]) ∧
       k ∉ (Part000.forceOff k s).1.heldKeys ∧
       k ∉ (Part000.forceOff k s).1.sustainPool) ∧
    (mapGet k s.active = none → Part000.forceOff k s = (s, [])) := by
  constructor
  · intro v h
    have heq := forceOff_some k s v h
    refine ⟨heq, ?_, ?_⟩
    · rw [heq]
      exact fun hc => ((mem_setDelete k k s.heldKeys).mp hc).2 rfl
    · rw [heq]
      exact fun hc => ((mem_setDelete k k s.sustainPool).mp hc).2 rfl
  · exact forceOff_none k s

/-- Witness for C6: force-off of a sounding, held, pooled key with the
pedal down removes it everywhere. -/
theorem forceOff_characterization_witness :
    Part000.forceOff "m60" ⟨[("m60", 0)], ["m60"], true, ["m60"], 1⟩
        = (⟨[], [], true, [], 1⟩, [AudioAction.fadeOut 0]) ∧
    "m60" ∉ (Part000.forceOff "m60" ⟨[("m60", 0)], ["m60"], true, ["m60"], 1⟩).1.heldKeys ∧
    "m60" ∉ (Part000.forceOff "m60" ⟨[("m60", 0)], ["m60"], true, ["m60"], 1⟩).1.sustainPool := by
  have h := (forceOff_characterization ⟨[("m60", 0)], ["m60"], true, ["m60"], 1⟩ "m60").1 0
    (by decide)
  exact ⟨h.1, h.2.1, h.2.2⟩

/-- Counterexample for C6 as stated: for a key with no active voice,
`forceOff` is a complete no-op — the key stays in the held set and in
the sustain pool, so the removal is not unconditional. -/
theorem forceOff_characterization_cx :
    Part000.forceOff "m60" ⟨[], ["m60"], false, ["m60"], 0⟩
        = (⟨[], ["m60"], false, ["m60"], 0⟩, []) ∧
    "m60" ∈ (Part000.forceOff "m60" ⟨[], ["m60"], false, ["m60"], 0⟩).1.heldKeys ∧
    "m60" ∈ (Part000.forceOff "m60" ⟨[], ["m60"], false, ["m60"], 0⟩).1.sustainPool := by
  decide

/-- C7: with the pedal up and `k` not held, the first `noteOff(k)` for
a sounding voice schedules exactly one fade-out, and a second
`noteOff(k)` finds no voice and is a silent no-op: the state is
unchanged and no further automation is issued. -/
theorem noteOff_idempotent (s : Part000.PState) (k : String) (v : Nat)
    (hs : s.sustain = false) (hheld : k ∉ s.heldKeys) (h : mapGet k s.active = some v) :
    (Part000.noteOff k s).2 = [AudioAction.fadeOut v] ∧
    Part000.noteOff k (Part000.noteOff k s).1 = ((Part000.noteOff k s).1, []) := by
  have heq : Part000.noteOff k s
      = ({ s with active := mapDelete k s.active }, [AudioAction.fadeOut v]) := by
    simp [Part000.noteOff, h, hs]
  refine ⟨by rw [heq], ?_⟩
  have hnone : mapGet k (Part000.noteOff k s).1.active = none := by
    rw [heq]
    exact mapGet_mapDelete_self k s.active
  exact noteOff_none k (Part000.noteOff k s).1 hnone

/-- Witness for C7: double release of "m60" with the pedal up. -/
theorem noteOff_idempotent_witness :
    (Part000.noteOff "m60" ⟨[("m60", 0)], [], false, [], 1⟩).2 = [AudioAction.fadeOut 0] ∧
    Part000.noteOff "m60" (Part000.noteOff "m60" ⟨[("m60", 0)], [], false, [], 1⟩).1
        = ((Part000.noteOff "m60" ⟨[("m60", 0)], [], false, [], 1⟩).1, []) :=
  noteOff_idempotent ⟨[("m60", 0)], [], false, [], 1⟩ "m60" 0 rfl (by decide) (by decide)

/-- C8 (amended): `noteToMidi` does return `null` for an unmapped note
string, but `activate` performs no rejection: it coerces the `null`
into the voice key `"mnull"`, adds that key to the held set, and
creates and starts a fresh voice for it — the request has side
effects. -/
theorem activate_unmapped (s : Part000.PState) (note : String)
    (h : noteToMidi note = none) :
    (Part000.activate note s).1.heldKeys = setAdd "mnull" s.heldKeys ∧
    mapGet "mnull" (Part000.activate note s).1.active = some s.nextId ∧
    AudioAction.startVoice s.nextId ∈ (Part000.activate note s).2 := by
  have hred : Part000.activate note s
      = Part000.noteOn "mnull" { s with heldKeys := setAdd "mnull" s.heldKeys } := by
    simp [Part000.activate, h, jsKey]
  rw [hred]
  refine ⟨rfl, ?_, ?_⟩
  · exact mapGet_mapSet_self "mnull" s.nextId s.active
  · simp [Part000.noteOn]

/-- Witness for C8: activating the unmapped note name "H4". -/
theorem activate_unmapped_witness :
    (Part000.activate "H4" Part000.init).1.heldKeys = setAdd "mnull" [] ∧
    mapGet "mnull" (Part000.activate "H4" Part000.init).1.active = some 0 ∧
    AudioAction.startVoice 0 ∈ (Part000.activate "H4" Part000.init).2 :=
  activate_unmapped Part000.init "H4" (by decide)

/-- Counterexample for C8 as stated: activating "H4" (for which
`noteToMidi` returns `null`) from the initial state is not rejected and
not side-effect-free: it registers "mnull" as held and starts voice 0
for it. -/
theorem activate_unmapped_cx :
    noteToMidi "H4" = none ∧
    Part000.activate "H4" Part000.init
        = (⟨[("mnull", 0)], ["mnull"], false, [], 1⟩, [AudioAction.startVoice 0]) := by
  decide

/-- C9: the stated pitch-helper equalities hold:
`midiToFreq(69) = 440`, `noteToMidi("A4") = 69`, and
`midiToNote(60) = "C4"`. -/
theorem pitch_helpers_spot : midiToFreq 69 = 440 ∧
    noteToMidi "A4" = some 69 ∧ midiToNote 60 = "C4" := by
  refine ⟨?_, by decide, by decide⟩
  have h0 : ((69 : ℝ) - 69) / 12 = 0 := by norm_num
  rw [midiToFreq, h0, Real.rpow_zero]
  norm_num

/-- C10: for every midi number in 12..131 (sharp-spelled name with a
single-digit octave) `noteToMidi` inverts `midiToNote`; below 12 the
octave prints as "-1" and from 132 on it has two digits, and in both
cases `noteToMidi` rejects the name with `null`. -/
theorem noteToMidi_midiToNote (m : Nat) :
    (12 ≤ m → m ≤ 131 → noteToMidi (midiToNote m) = some m) ∧
    (m < 12 ∨ 132 ≤ m → noteToMidi (midiToNote m) = none) := by
  constructor
  · intro h1 h2
    have key : ∀ n : Nat, n < 132 → 12 ≤ n → noteToMidi (midiToNote n) = some n := by decide
    exact key m (by omega) h1
  · intro h
    rcases h with h | h
    · have key : ∀ n : Nat, n < 12 → noteToMidi (midiToNote n) = none := by decide
      exact key m h
    · exact noteToMidi_midiToNote_big m h

/-- Witness for C10: the round trip at 60 and rejections at 7 and 200. -/
theorem noteToMidi_midiToNote_witness :
    noteToMidi (midiToNote 60) = some 60 ∧ noteToMidi (midiToNote 7) = none ∧
    noteToMidi (midiToNote 200) = none :=
  ⟨(noteToMidi_midiToNote 60).1 (by decide) (by decide),
   (noteToMidi_midiToNote 7).2 (Or.inl (by decide)),
   (noteToMidi_midiToNote 200).2 (Or.inr (by decide))⟩

end Noteorious
